import Mathlib

set_option maxRecDepth 100000

/-!
Verification of the content-decryption pipeline of the Deezer-dl repository.

All strings of the Rust source are modelled as lists of their UTF-8 byte
values (`List Nat`), matching `str::as_bytes` / `String::len` semantics.
The external cipher primitives (the `blowfish` and `aes` crates) are not
part of the repository; they enter the model as abstract block functions,
while everything the repository itself implements (MD5 driving, hex
encoding, key derivation, CBC chaining over super-chunks, URL synthesis,
depadding, the format model) is embedded concretely from `src/crypto.rs`,
`src/download.rs` and `src/models.rs`.
-/

/-- Lowercase hex digit of a value below 16, as an ASCII byte. -/
def hexDigit (n : Nat) : Nat := if n < 10 then 48 + n else 87 + n

/-- Hex-encode a byte list into the ASCII bytes of its lowercase hex string,
mirroring `hex::encode`. -/
def hexBytes (bytes : List Nat) : List Nat :=
  (bytes.map (fun b => [hexDigit (b / 16), hexDigit (b % 16)])).flatten

/-- Split a byte list into consecutive 64-byte blocks (the final block may
be shorter when the length is not a multiple of 64). -/
def chunks64 (l : List Nat) : List (List Nat) :=
  (List.range ((l.length + 63) / 64)).map (fun j => (l.drop (64 * j)).take 64)

/-- Split a byte list into consecutive 16-byte blocks, mirroring
`data.chunks(16)` (the final block may be shorter). -/
def chunks16 (l : List Nat) : List (List Nat) :=
  (List.range ((l.length + 15) / 16)).map (fun j => (l.drop (16 * j)).take 16)

/-- Rotate a 32-bit word left by `s` bits (`0 < s < 32`). -/
def rotl32 (x s : Nat) : Nat := ((x <<< s) % 4294967296) ||| (x >>> (32 - s))

/-- The 64 MD5 sine-derived round constants. -/
def md5K : List Nat :=
  [0xd76aa478, 0xe8c7b756, 0x242070db, 0xc1bdceee,
   0xf57c0faf, 0x4787c62a, 0xa8304613, 0xfd469501,
   0x698098d8, 0x8b44f7af, 0xffff5bb1, 0x895cd7be,
   0x6b901122, 0xfd987193, 0xa679438e, 0x49b40821,
   0xf61e2562, 0xc040b340, 0x265e5a51, 0xe9b6c7aa,
   0xd62f105d, 0x02441453, 0xd8a1e681, 0xe7d3fbc8,
   0x21e1cde6, 0xc33707d6, 0xf4d50d87, 0x455a14ed,
   0xa9e3e905, 0xfcefa3f8, 0x676f02d9, 0x8d2a4c8a,
   0xfffa3942, 0x8771f681, 0x6d9d6122, 0xfde5380c,
   0xa4beea44, 0x4bdecfa9, 0xf6bb4b60, 0xbebfbc70,
   0x289b7ec6, 0xeaa127fa, 0xd4ef3085, 0x04881d05,
   0xd9d4d039, 0xe6db99e5, 0x1fa27cf8, 0xc4ac5665,
   0xf4292244, 0x432aff97, 0xab9423a7, 0xfc93a039,
   0x655b59c3, 0x8f0ccc92, 0xffeff47d, 0x85845dd1,
   0x6fa87e4f, 0xfe2ce6e0, 0xa3014314, 0x4e0811a1,
   0xf7537e82, 0xbd3af235, 0x2ad7d2bb, 0xeb86d391]

/-- The 64 MD5 per-round left-rotation amounts. -/
def md5S : List Nat :=
  [7, 12, 17, 22, 7, 12, 17, 22, 7, 12, 17, 22, 7, 12, 17, 22,
   5, 9, 14, 20, 5, 9, 14, 20, 5, 9, 14, 20, 5, 9, 14, 20,
   4, 11, 16, 23, 4, 11, 16, 23, 4, 11, 16, 23, 4, 11, 16, 23,
   6, 10, 15, 21, 6, 10, 15, 21, 6, 10, 15, 21, 6, 10, 15, 21]

/-- Little-endian 32-bit word number `g` of a 64-byte block. -/
def wordAt (block : List Nat) (g : Nat) : Nat :=
  block.getD (4 * g) 0 + 256 * block.getD (4 * g + 1) 0 +
    65536 * block.getD (4 * g + 2) 0 + 16777216 * block.getD (4 * g + 3) 0

/-- One MD5 round: state `(a, b, c, d)` updated with round index `i`. -/
def md5Step (block : List Nat) (st : Nat × Nat × Nat × Nat) (i : Nat) :
    Nat × Nat × Nat × Nat :=
  let a := st.1
  let b := st.2.1
  let c := st.2.2.1
  let d := st.2.2.2
  let f :=
    if i < 16 then (b &&& c) ||| ((b ^^^ 4294967295) &&& d)
    else if i < 32 then (d &&& b) ||| ((d ^^^ 4294967295) &&& c)
    else if i < 48 then b ^^^ c ^^^ d
    else c ^^^ (b ||| (d ^^^ 4294967295))
  let g :=
    if i < 16 then i
    else if i < 32 then (5 * i + 1) % 16
    else if i < 48 then (3 * i + 5) % 16
    else (7 * i) % 16
  let tmp := (f + a + md5K.getD i 0 + wordAt block g) % 4294967296
  (d, (b + rotl32 tmp (md5S.getD i 0)) % 4294967296, b, c)

/-- Process one 64-byte block: 64 rounds, then add into the running state. -/
def md5ProcessBlock (st : Nat × Nat × Nat × Nat) (block : List Nat) :
    Nat × Nat × Nat × Nat :=
  let r := (List.range 64).foldl (md5Step block) st
  ((st.1 + r.1) % 4294967296, (st.2.1 + r.2.1) % 4294967296,
   (st.2.2.1 + r.2.2.1) % 4294967296, (st.2.2.2 + r.2.2.2) % 4294967296)

/-- Little-endian 4-byte encoding of a 32-bit word. -/
def le4 (n : Nat) : List Nat :=
  [n % 256, n / 256 % 256, n / 65536 % 256, n / 16777216 % 256]

/-- Little-endian 8-byte encoding of a 64-bit value. -/
def le8 (n : Nat) : List Nat := le4 (n % 4294967296) ++ le4 (n / 4294967296)

/-- MD5 padding: `0x80`, zeros to 56 mod 64, then the 64-bit bit length. -/
def md5Pad (m : List Nat) : List Nat :=
  m ++ [128] ++ List.replicate ((120 - (m.length + 1) % 64) % 64) 0 ++
    le8 (8 * m.length)

/-- The 16-byte MD5 digest of a byte list. -/
def md5Bytes (m : List Nat) : List Nat :=
  let st := (chunks64 (md5Pad m)).foldl md5ProcessBlock
    (0x67452301, 0xefcdab89, 0x98badcfe, 0x10325476)
  le4 st.1 ++ le4 st.2.1 ++ le4 st.2.2.1 ++ le4 st.2.2.2

/-- MD5 digest as the 32 ASCII bytes of its lowercase hex string,
mirroring `md5_hex` in `src/crypto.rs`. -/
def md5_hex (data : List Nat) : List Nat := hexBytes (md5Bytes data)

/-- The fixed 16-byte XOR secret `"g4el58wc0zvf9na1"` of
`generate_blowfish_key`. -/
def SECRET : List Nat :=
  [103, 52, 101, 108, 53, 56, 119, 99, 48, 122, 118, 102, 57, 110, 97, 49]

/-- Blowfish key derivation from `src/crypto.rs`: byte `i` of the key is
`md5_hex(track_id)[i] XOR md5_hex(track_id)[i + 16] XOR SECRET[i]`. -/
def generate_blowfish_key (track_id : List Nat) : List Nat :=
  let id_md5_bytes := md5_hex track_id
  (List.range 16).map (fun i =>
    (id_md5_bytes.getD i 0) ^^^ (id_md5_bytes.getD (i + 16) 0) ^^^
      (SECRET.getD i 0))

/-- An 8-byte cipher block, mirroring `GenericArray<u8, U8>`. -/
abbrev Block8 : Type := Fin 8 → Nat

/-- The 8-byte block starting a byte list (used on lists of length at least
8; missing positions default to 0). -/
def blockOf (l : List Nat) : Block8 := fun i => l.getD i 0

/-- Bytewise XOR of two 8-byte blocks. -/
def xorBlock (b c : Block8) : Block8 := fun i => b i ^^^ c i

/-- The fixed initialization vector `[0, 1, 2, 3, 4, 5, 6, 7]` of
`decrypt_chunk`. -/
def bfIV : Block8 := fun i => i.val

/-- Ciphertext block chained into block `k` of a CBC decryption: the IV for
the first block, the previous ciphertext block afterwards. -/
def chainBlock (iv : Block8) (l : List Nat) : Nat → Block8
  | 0 => iv
  | k + 1 => blockOf (l.drop (8 * k))

/-- CBC decryption of the `l.length / 8` full 8-byte blocks of `l` under an
abstract block decryption function, the trailing `l.length % 8` bytes left
untouched — the semantics of `decrypt_blocks_mut` over `block_count` blocks
in `decrypt_chunk`. -/
def cbcDecrypt (dec : Block8 → Block8) (iv : Block8) (l : List Nat) :
    List Nat :=
  ((List.range (l.length / 8)).map (fun k =>
      List.ofFn (xorBlock (dec (blockOf (l.drop (8 * k)))) (chainBlock iv l k)))).flatten
    ++ l.drop (8 * (l.length / 8))

/-- Embedding of `decrypt_chunk` from `src/crypto.rs`: Blowfish-CBC decryption of a chunk
with the fixed IV, the Blowfish block primitive abstracted as `bfDec`. -/
def decrypt_chunk (bfDec : List Nat → Block8 → Block8)
    (chunk blowfish_key : List Nat) : List Nat :=
  cbcDecrypt (bfDec blowfish_key) bfIV chunk

/-- Embedding of `decrypt_stream` from `src/crypto.rs`: the byte stream is processed in
super-chunks of up to `2048 * 3` bytes; a super-chunk of at least 2048
bytes has its first 2048 bytes CBC-decrypted and the rest copied through, a
shorter one is copied through whole. -/
def decrypt_stream (bfDec : List Nat → Block8 → Block8)
    (encrypted blowfish_key : List Nat) : List Nat :=
  ((List.range ((encrypted.length + 6143) / 6144)).map (fun j =>
      let chunk := (encrypted.drop (6144 * j)).take 6144
      if 2048 ≤ chunk.length then
        decrypt_chunk bfDec (chunk.take 2048) blowfish_key ++ chunk.drop 2048
      else chunk)).flatten

/-- CBC encryption of `n` 8-byte blocks of `l`, chaining each ciphertext
block into the next. Modelled from the spec: the synthetic encryption
oracle uses the same chained-block cipher as `decrypt_chunk`, with each
block's ciphertext feeding the chaining of the next block. -/
def cbcEncryptBlocks (enc : Block8 → Block8) (prev : Block8) (l : List Nat) :
    Nat → List Nat
  | 0 => []
  | n + 1 =>
    let c := enc (xorBlock (blockOf l) prev)
    List.ofFn c ++ cbcEncryptBlocks enc c (l.drop 8) n

/-- CBC encryption of the full 8-byte blocks of `l`, trailing bytes copied
through. Modelled from the spec: inverse-direction counterpart of
`cbcDecrypt` for the synthetic oracle. -/
def cbcEncrypt (enc : Block8 → Block8) (prev : Block8) (l : List Nat) :
    List Nat :=
  cbcEncryptBlocks enc prev l (l.length / 8) ++ l.drop (8 * (l.length / 8))

/-- Modelled from the spec: the synthetic encryption oracle of the
round-trip property — encrypt the first 2048 bytes of each 6144-byte
super-chunk with the chained-block cipher under IV `{0,...,7}`, leave the
rest clear, exactly mirroring the super-chunk structure of
`decrypt_stream`. -/
def encrypt_like_service (bfEnc : List Nat → Block8 → Block8)
    (plain blowfish_key : List Nat) : List Nat :=
  ((List.range ((plain.length + 6143) / 6144)).map (fun j =>
      let chunk := (plain.drop (6144 * j)).take 6144
      if 2048 ≤ chunk.length then
        cbcEncrypt (bfEnc blowfish_key) bfIV (chunk.take 2048) ++ chunk.drop 2048
      else chunk)).flatten

/-- Sanity check: the standard MD5 test vector for the empty input. -/
theorem md5_hex_empty_vector :
    md5_hex [] = [100, 52, 49, 100, 56, 99, 100, 57, 56, 102, 48, 48, 98, 50,
      48, 52, 101, 57, 56, 48, 48, 57, 57, 56, 101, 99, 102, 56, 52, 50, 55,
      101] := by decide


/-- Sanity check: the derived key for the track id `"3135556"` (bytes
`[51, 49, 51, 53, 53, 53, 54]`) has 16 bytes. -/
theorem generate_blowfish_key_vector_length :
    (generate_blowfish_key [51, 49, 51, 53, 53, 53, 54]).length = 16 := by
  decide

theorem xorBlock_cancel (b iv : Block8) : xorBlock (xorBlock b iv) iv = b := by
  funext i
  simp [xorBlock, Nat.xor_cancel_right]

theorem blockOf_ofFn_append (c : Block8) (rest : List Nat) :
    blockOf (List.ofFn c ++ rest) = c := by
  funext i
  have hi : (i : Nat) < (List.ofFn c).length := by
    simp [List.length_ofFn]
  rw [blockOf, List.getD_append _ _ _ _ hi, List.getD_eq_getElem _ _ hi,
    List.getElem_ofFn]

theorem ofFn_blockOf_eq_take (l : List Nat) (h : 8 ≤ l.length) :
    List.ofFn (blockOf l) = l.take 8 := by
  apply List.ext_getElem
  · simp [List.length_ofFn]
    omega
  · intro i h1 h2
    rw [List.getElem_ofFn]
    have hi : i < l.length := by
      simp [List.length_ofFn] at h1
      omega
    rw [blockOf, List.getD_eq_getElem _ _ hi, List.getElem_take]

theorem chainBlock_shift (iv : Block8) (l : List Nat) (k : Nat) :
    chainBlock iv l (k + 1) = chainBlock (blockOf l) (l.drop 8) k := by
  cases k with
  | zero => simp [chainBlock]
  | succ j =>
    show blockOf (l.drop (8 * (j + 1))) = blockOf ((l.drop 8).drop (8 * j))
    rw [List.drop_drop, show 8 + 8 * j = 8 * (j + 1) by omega]

/-- One-step unfolding of `cbcDecrypt` on a list with at least one full
block. -/
theorem cbcDecrypt_cons (dec : Block8 → Block8) (iv : Block8) (l : List Nat)
    (h : 8 ≤ l.length) :
    cbcDecrypt dec iv l =
      List.ofFn (xorBlock (dec (blockOf l)) iv) ++
        cbcDecrypt dec (blockOf l) (l.drop 8) := by
  have hm : l.length / 8 = (l.drop 8).length / 8 + 1 := by
    simp [List.length_drop]
    omega
  rw [cbcDecrypt, cbcDecrypt, hm, List.range_succ_eq_map, List.map_cons,
    List.flatten_cons, List.map_map]
  have h0 : (List.ofFn (xorBlock (dec (blockOf (l.drop (8 * 0))))
      (chainBlock iv l 0))) = List.ofFn (xorBlock (dec (blockOf l)) iv) := by
    simp [chainBlock]
  have hfun :
      ((fun k => List.ofFn (xorBlock (dec (blockOf (l.drop (8 * k))))
          (chainBlock iv l k))) ∘ Nat.succ) =
      (fun k => List.ofFn (xorBlock (dec (blockOf ((l.drop 8).drop (8 * k))))
          (chainBlock (blockOf l) (l.drop 8) k))) := by
    funext k
    show List.ofFn (xorBlock (dec (blockOf (l.drop (8 * (k + 1)))))
        (chainBlock iv l (k + 1))) = _
    rw [chainBlock_shift, List.drop_drop, show 8 + 8 * k = 8 * (k + 1) by omega]
  have htail : l.drop (8 * ((l.drop 8).length / 8 + 1)) =
      (l.drop 8).drop (8 * ((l.drop 8).length / 8)) := by
    rw [List.drop_drop]
    congr 1
    omega
  rw [h0, hfun, htail, List.append_assoc]

/-- The function `cbcDecrypt` leaves a list with no full block unchanged. -/
theorem cbcDecrypt_of_lt (dec : Block8 → Block8) (iv : Block8) (l : List Nat)
    (h : l.length < 8) : cbcDecrypt dec iv l = l := by
  rw [cbcDecrypt, Nat.div_eq_of_lt h]
  simp

/-- One-step unfolding of `cbcEncrypt` on a list with at least one full
block. -/
theorem cbcEncrypt_cons (enc : Block8 → Block8) (iv : Block8) (l : List Nat)
    (h : 8 ≤ l.length) :
    cbcEncrypt enc iv l =
      List.ofFn (enc (xorBlock (blockOf l) iv)) ++
        cbcEncrypt enc (enc (xorBlock (blockOf l) iv)) (l.drop 8) := by
  have hm : l.length / 8 = (l.drop 8).length / 8 + 1 := by
    simp [List.length_drop]
    omega
  rw [cbcEncrypt, cbcEncrypt, hm, cbcEncryptBlocks, List.append_assoc]
  congr 2
  rw [List.drop_drop]
  congr 1
  omega

/-- The function `cbcEncrypt` leaves a list with no full block unchanged. -/
theorem cbcEncrypt_of_lt (enc : Block8 → Block8) (iv : Block8) (l : List Nat)
    (h : l.length < 8) : cbcEncrypt enc iv l = l := by
  rw [cbcEncrypt, Nat.div_eq_of_lt h]
  simp [cbcEncryptBlocks]

theorem cbcDecrypt_length (dec : Block8 → Block8) (iv : Block8)
    (l : List Nat) : (cbcDecrypt dec iv l).length = l.length := by
  rw [cbcDecrypt, List.length_append, List.length_flatten, List.map_map]
  have hmap : List.map (List.length ∘ fun k =>
      List.ofFn (xorBlock (dec (blockOf (List.drop (8 * k) l)))
        (chainBlock iv l k))) (List.range (l.length / 8)) =
      List.replicate (l.length / 8) 8 := by
    apply List.eq_replicate_iff.mpr
    refine ⟨by simp, ?_⟩
    intro b hb
    simp only [List.mem_map, List.mem_range, Function.comp_apply] at hb
    obtain ⟨k, _, rfl⟩ := hb
    exact List.length_ofFn _
  rw [hmap, List.sum_replicate, smul_eq_mul, List.length_drop]
  omega

theorem cbcEncryptBlocks_length (enc : Block8 → Block8) :
    ∀ (n : Nat) (prev : Block8) (l : List Nat),
      (cbcEncryptBlocks enc prev l n).length = 8 * n := by
  intro n
  induction n with
  | zero => intro prev l; rfl
  | succ m ih =>
    intro prev l
    rw [cbcEncryptBlocks]
    simp [List.length_ofFn, ih]
    omega

theorem cbcEncrypt_length (enc : Block8 → Block8) (iv : Block8)
    (l : List Nat) : (cbcEncrypt enc iv l).length = l.length := by
  rw [cbcEncrypt]
  simp [cbcEncryptBlocks_length]
  omega

/-- CBC decryption inverts CBC encryption block-for-block when the block
decryption function inverts the block encryption function. -/
theorem cbcDecrypt_cbcEncrypt_aux (enc dec : Block8 → Block8)
    (hinv : ∀ b : Block8, dec (enc b) = b) :
    ∀ (n : Nat) (iv : Block8) (l : List Nat), l.length ≤ n →
      cbcDecrypt dec iv (cbcEncrypt enc iv l) = l := by
  intro n
  induction n with
  | zero =>
    intro iv l hl
    have h0 : l.length < 8 := by omega
    rw [cbcEncrypt_of_lt enc iv l h0, cbcDecrypt_of_lt dec iv l h0]
  | succ m ih =>
    intro iv l hl
    by_cases h : 8 ≤ l.length
    · rw [cbcEncrypt_cons enc iv l h]
      have hlen : 8 ≤ (List.ofFn (enc (xorBlock (blockOf l) iv)) ++
          cbcEncrypt enc (enc (xorBlock (blockOf l) iv)) (l.drop 8)).length := by
        simp [List.length_ofFn]
      rw [cbcDecrypt_cons dec iv _ hlen, blockOf_ofFn_append,
        List.drop_left' (by simp [List.length_ofFn]), hinv, xorBlock_cancel,
        ofFn_blockOf_eq_take l h, ih _ (l.drop 8) (by simp; omega),
        List.take_append_drop]
    · push_neg at h
      rw [cbcEncrypt_of_lt enc iv l h, cbcDecrypt_of_lt dec iv l h]

theorem cbcDecrypt_cbcEncrypt (enc dec : Block8 → Block8)
    (hinv : ∀ b : Block8, dec (enc b) = b) (iv : Block8) (l : List Nat) :
    cbcDecrypt dec iv (cbcEncrypt enc iv l) = l :=
  cbcDecrypt_cbcEncrypt_aux enc dec hinv l.length iv l le_rfl

/-- Unfolding of one 6144-byte super-chunk from the chunked iteration
shared by `decrypt_stream` and `encrypt_like_service`. -/
theorem chunked_map_cons (F : List Nat → List Nat) (E : List Nat)
    (hE : E ≠ []) :
    ((List.range ((E.length + 6143) / 6144)).map
        (fun j => F ((E.drop (6144 * j)).take 6144))).flatten =
      F (E.take 6144) ++
        ((List.range (((E.drop 6144).length + 6143) / 6144)).map
          (fun j => F (((E.drop 6144).drop (6144 * j)).take 6144))).flatten := by
  have hpos : 0 < E.length := List.length_pos.mpr hE
  have hm : (E.length + 6143) / 6144 =
      ((E.drop 6144).length + 6143) / 6144 + 1 := by
    rw [List.length_drop]
    omega
  rw [hm, List.range_succ_eq_map, List.map_cons, List.flatten_cons,
    List.map_map]
  have hfun : ((fun j => F (List.take 6144 (List.drop (6144 * j) E))) ∘
      Nat.succ) =
      (fun j => F (List.take 6144 (List.drop (6144 * j) (List.drop 6144 E)))) := by
    funext k
    simp only [Function.comp_apply]
    rw [List.drop_drop, show 6144 + 6144 * k = 6144 * (k + 1) by omega]
  rw [hfun, Nat.mul_zero, List.drop_zero]

theorem decrypt_stream_nil (bfDec : List Nat → Block8 → Block8)
    (blowfish_key : List Nat) : decrypt_stream bfDec [] blowfish_key = [] :=
  rfl

/-- One-step unfolding of `decrypt_stream`: the first super-chunk is
processed, then the loop continues on the rest. -/
theorem decrypt_stream_cons (bfDec : List Nat → Block8 → Block8)
    (E blowfish_key : List Nat) (hE : E ≠ []) :
    decrypt_stream bfDec E blowfish_key =
      (if 2048 ≤ (E.take 6144).length then
        decrypt_chunk bfDec ((E.take 6144).take 2048) blowfish_key ++
          (E.take 6144).drop 2048
       else E.take 6144) ++
        decrypt_stream bfDec (E.drop 6144) blowfish_key :=
  chunked_map_cons (fun chunk =>
    if 2048 ≤ chunk.length then
      decrypt_chunk bfDec (chunk.take 2048) blowfish_key ++ chunk.drop 2048
    else chunk) E hE

theorem encrypt_like_service_nil (bfEnc : List Nat → Block8 → Block8)
    (blowfish_key : List Nat) :
    encrypt_like_service bfEnc [] blowfish_key = [] :=
  rfl

/-- One-step unfolding of `encrypt_like_service`. -/
theorem encrypt_like_service_cons (bfEnc : List Nat → Block8 → Block8)
    (p blowfish_key : List Nat) (hp : p ≠ []) :
    encrypt_like_service bfEnc p blowfish_key =
      (if 2048 ≤ (p.take 6144).length then
        cbcEncrypt (bfEnc blowfish_key) bfIV ((p.take 6144).take 2048) ++
          (p.take 6144).drop 2048
       else p.take 6144) ++
        encrypt_like_service bfEnc (p.drop 6144) blowfish_key :=
  chunked_map_cons (fun chunk =>
    if 2048 ≤ chunk.length then
      cbcEncrypt (bfEnc blowfish_key) bfIV (chunk.take 2048) ++
        chunk.drop 2048
    else chunk) p hp

theorem decrypt_chunk_length (bfDec : List Nat → Block8 → Block8)
    (chunk blowfish_key : List Nat) :
    (decrypt_chunk bfDec chunk blowfish_key).length = chunk.length :=
  cbcDecrypt_length _ _ _

theorem decrypt_stream_length_aux (bfDec : List Nat → Block8 → Block8)
    (blowfish_key : List Nat) :
    ∀ (n : Nat) (E : List Nat), E.length ≤ n →
      (decrypt_stream bfDec E blowfish_key).length = E.length := by
  intro n
  induction n with
  | zero =>
    intro E hE
    have : E = [] := List.eq_nil_of_length_eq_zero (by omega)
    subst this
    rfl
  | succ m ih =>
    intro E hE
    by_cases hnil : E = []
    · subst hnil; rfl
    · have hpos : 0 < E.length := List.length_pos.mpr hnil
      rw [decrypt_stream_cons bfDec E blowfish_key hnil, List.length_append,
        ih (E.drop 6144) (by rw [List.length_drop]; omega)]
      by_cases hbig : 2048 ≤ (E.take 6144).length
      · rw [if_pos hbig, List.length_append, decrypt_chunk_length]
        simp only [List.length_take, List.length_drop]
        omega
      · rw [if_neg hbig]
        simp only [List.length_take, List.length_drop]
        omega

theorem encrypt_like_service_length_aux (bfEnc : List Nat → Block8 → Block8)
    (blowfish_key : List Nat) :
    ∀ (n : Nat) (p : List Nat), p.length ≤ n →
      (encrypt_like_service bfEnc p blowfish_key).length = p.length := by
  intro n
  induction n with
  | zero =>
    intro p hp
    have : p = [] := List.eq_nil_of_length_eq_zero (by omega)
    subst this
    rfl
  | succ m ih =>
    intro p hp
    by_cases hnil : p = []
    · subst hnil; rfl
    · have hpos : 0 < p.length := List.length_pos.mpr hnil
      rw [encrypt_like_service_cons bfEnc p blowfish_key hnil,
        List.length_append,
        ih (p.drop 6144) (by rw [List.length_drop]; omega)]
      by_cases hbig : 2048 ≤ (p.take 6144).length
      · rw [if_pos hbig, List.length_append, cbcEncrypt_length]
        simp only [List.length_take, List.length_drop]
        omega
      · rw [if_neg hbig]
        simp only [List.length_take, List.length_drop]
        omega

/-- Decrypting the output of the synthetic oracle recovers the plaintext,
super-chunk by super-chunk. -/
theorem decrypt_stream_encrypt_like_service_aux
    (bfEnc bfDec : List Nat → Block8 → Block8) (blowfish_key : List Nat)
    (hinv : ∀ b : Block8, bfDec blowfish_key (bfEnc blowfish_key b) = b) :
    ∀ (n : Nat) (p : List Nat), p.length ≤ n →
      decrypt_stream bfDec (encrypt_like_service bfEnc p blowfish_key)
        blowfish_key = p := by
  intro n
  induction n with
  | zero =>
    intro p hp
    have : p = [] := List.eq_nil_of_length_eq_zero (by omega)
    subst this
    rw [encrypt_like_service_nil, decrypt_stream_nil]
  | succ m ih =>
    intro p hp
    by_cases hnil : p = []
    · subst hnil
      rw [encrypt_like_service_nil, decrypt_stream_nil]
    · have hpos : 0 < p.length := List.length_pos.mpr hnil
      set chunk := p.take 6144 with hchunk
      set C := (if 2048 ≤ chunk.length then
          cbcEncrypt (bfEnc blowfish_key) bfIV (chunk.take 2048) ++
            chunk.drop 2048
        else chunk) with hC
      set R := encrypt_like_service bfEnc (p.drop 6144) blowfish_key with hR
      have hCR : encrypt_like_service bfEnc p blowfish_key = C ++ R :=
        encrypt_like_service_cons bfEnc p blowfish_key hnil
      have hClen : C.length = chunk.length := by
        rw [hC]
        by_cases hbig : 2048 ≤ chunk.length
        · rw [if_pos hbig, List.length_append, cbcEncrypt_length]
          simp only [List.length_take, List.length_drop]
          omega
        · rw [if_neg hbig]
      have hchunklen : chunk.length = min 6144 p.length := by
        rw [hchunk, List.length_take]
      have hRlen : R.length = p.length - 6144 := by
        rw [hR, encrypt_like_service_length_aux bfEnc blowfish_key
          (p.drop 6144).length (p.drop 6144) le_rfl, List.length_drop]
      have hCRnil : C ++ R ≠ [] := by
        intro hcon
        have : (C ++ R).length = 0 := by rw [hcon]; rfl
        rw [List.length_append, hClen] at this
        omega
      have htake : (C ++ R).take 6144 = C := by
        by_cases hsmall : p.length ≤ 6144
        · have hRnil : R = [] := List.eq_nil_of_length_eq_zero (by omega)
          rw [hRnil, List.append_nil]
          exact List.take_of_length_le (by omega)
        · exact List.take_left' (by omega)
      have hdrop : (C ++ R).drop 6144 = R := by
        by_cases hsmall : p.length ≤ 6144
        · have hRnil : R = [] := List.eq_nil_of_length_eq_zero (by omega)
          rw [hRnil, List.append_nil]
          exact List.drop_of_length_le (by omega)
        · exact List.drop_left' (by omega)
      rw [hCR, decrypt_stream_cons bfDec (C ++ R) blowfish_key hCRnil,
        htake, hdrop, hR,
        ih (p.drop 6144) (by rw [List.length_drop]; omega)]
      have hhead : (if 2048 ≤ C.length then
          decrypt_chunk bfDec (C.take 2048) blowfish_key ++ C.drop 2048
        else C) = chunk := by
        by_cases hbig : 2048 ≤ chunk.length
        · have hCval : C = cbcEncrypt (bfEnc blowfish_key) bfIV
              (chunk.take 2048) ++ chunk.drop 2048 := by
            rw [hC, if_pos hbig]
          have henclen : (cbcEncrypt (bfEnc blowfish_key) bfIV
              (chunk.take 2048)).length = 2048 := by
            rw [cbcEncrypt_length]
            simp only [List.length_take]
            omega
          rw [if_pos (by omega : 2048 ≤ C.length), hCval,
            List.take_left' henclen, List.drop_left' henclen, decrypt_chunk,
            cbcDecrypt_cbcEncrypt (bfEnc blowfish_key) (bfDec blowfish_key)
              hinv bfIV (chunk.take 2048),
            List.take_append_drop]
        · have hCval : C = chunk := by rw [hC, if_neg hbig]
          rw [if_neg (by omega : ¬ 2048 ≤ C.length), hCval]
      rw [hhead, hchunk, List.take_append_drop]

theorem cbcDecrypt_drop_tail (dec : Block8 → Block8) (iv : Block8)
    (l : List Nat) :
    (cbcDecrypt dec iv l).drop (8 * (l.length / 8)) =
      l.drop (8 * (l.length / 8)) := by
  have hlen := cbcDecrypt_length dec iv l
  rw [cbcDecrypt] at hlen ⊢
  rw [List.length_append, List.length_drop] at hlen
  exact List.drop_left' (by omega)

/-- Claim C1: for every 16-byte key and every plaintext whose length is one
of {0, 2047, 2048, 2049, 6144, 6145, 12288}, encrypting with the synthetic
oracle (same chunked Blowfish-CBC scheme, IV `{0,...,7}`, first 2048 bytes
of each 6144-byte super-chunk) and then applying `decrypt_stream` with the
same key returns the plaintext byte-for-byte, for any pair of Blowfish
block functions that invert each other under that key. -/
theorem c1_decrypt_stream_roundtrip
    (bfEnc bfDec : List Nat → Block8 → Block8)
    (blowfish_key plaintext : List Nat)
    (hkey : blowfish_key.length = 16)
    (hinv : ∀ b : Block8, bfDec blowfish_key (bfEnc blowfish_key b) = b)
    (hlen : plaintext.length ∈ [0, 2047, 2048, 2049, 6144, 6145, 12288]) :
    decrypt_stream bfDec (encrypt_like_service bfEnc plaintext blowfish_key)
      blowfish_key = plaintext :=
  decrypt_stream_encrypt_like_service_aux bfEnc bfDec blowfish_key hinv
    plaintext.length plaintext le_rfl

theorem c1_decrypt_stream_roundtrip_witness :
    decrypt_stream (fun _ b => b)
      (encrypt_like_service (fun _ b => b) (List.replicate 2049 7)
        (List.replicate 16 0)) (List.replicate 16 0) =
      List.replicate 2049 7 :=
  c1_decrypt_stream_roundtrip (fun _ b => b) (fun _ b => b)
    (List.replicate 16 0) (List.replicate 2049 7) (by simp)
    (fun b => rfl) (by norm_num)

/-- Claim C2: for every input byte buffer and every 16-byte key, the output
of `decrypt_stream` has exactly the same length as the input buffer. -/
theorem c2_decrypt_stream_length (bfDec : List Nat → Block8 → Block8)
    (encrypted blowfish_key : List Nat) (hkey : blowfish_key.length = 16) :
    (decrypt_stream bfDec encrypted blowfish_key).length = encrypted.length :=
  decrypt_stream_length_aux bfDec blowfish_key encrypted.length encrypted
    le_rfl

theorem c2_decrypt_stream_length_witness :
    (decrypt_stream (fun _ b => b) [1, 2, 3] (List.replicate 16 0)).length =
      3 := by
  have h := c2_decrypt_stream_length (fun _ b => b) [1, 2, 3]
    (List.replicate 16 0) (by simp)
  simpa using h

/-- Claim C3: every input shorter than 2048 bytes (the empty buffer
included) passes through `decrypt_stream` byte-for-byte unchanged, and more
generally a final super-chunk shorter than 2048 bytes (after any number of
whole 6144-byte super-chunks) is copied through unmodified. -/
theorem c3_short_passthrough (bfDec : List Nat → Block8 → Block8)
    (blowfish_key : List Nat) :
    (∀ encrypted : List Nat, encrypted.length < 2048 →
      decrypt_stream bfDec encrypted blowfish_key = encrypted) ∧
    (∀ p t : List Nat, 6144 ∣ p.length → t.length < 2048 →
      decrypt_stream bfDec (p ++ t) blowfish_key =
        decrypt_stream bfDec p blowfish_key ++ t) := by
  have hshort : ∀ encrypted : List Nat, encrypted.length < 2048 →
      decrypt_stream bfDec encrypted blowfish_key = encrypted := by
    intro E hE
    by_cases hnil : E = []
    · subst hnil; rfl
    · rw [decrypt_stream_cons bfDec E blowfish_key hnil,
        if_neg (by simp only [List.length_take]; omega),
        List.take_of_length_le (by omega),
        List.drop_of_length_le (by omega),
        decrypt_stream_nil, List.append_nil]
  refine ⟨hshort, ?_⟩
  have haux : ∀ (n : Nat) (p t : List Nat), p.length ≤ n →
      6144 ∣ p.length → t.length < 2048 →
      decrypt_stream bfDec (p ++ t) blowfish_key =
        decrypt_stream bfDec p blowfish_key ++ t := by
    intro n
    induction n with
    | zero =>
      intro p t hp hdvd ht
      have : p = [] := List.eq_nil_of_length_eq_zero (by omega)
      subst this
      rw [List.nil_append, decrypt_stream_nil, List.nil_append, hshort t ht]
    | succ m ih =>
      intro p t hp hdvd ht
      by_cases hnil : p = []
      · subst hnil
        rw [List.nil_append, decrypt_stream_nil, List.nil_append, hshort t ht]
      · have hpos : 0 < p.length := List.length_pos.mpr hnil
        have hbig : 6144 ≤ p.length := by
          rcases hdvd with ⟨c, hc⟩
          rcases Nat.eq_zero_or_pos c with h0 | h0 <;> omega
        have hlen6144 : (p.take 6144).length = 6144 := by
          rw [List.length_take]
          omega
        have hsplit : p ++ t = p.take 6144 ++ (p.drop 6144 ++ t) := by
          rw [← List.append_assoc, List.take_append_drop]
        have hptnil : p ++ t ≠ [] := fun hcon =>
          hnil (List.append_eq_nil.mp hcon).1
        rw [decrypt_stream_cons bfDec (p ++ t) blowfish_key hptnil,
          decrypt_stream_cons bfDec p blowfish_key hnil]
        have htake1 : (p ++ t).take 6144 = p.take 6144 :=
          List.take_append_of_le_length (by omega)
        have hdrop1 : (p ++ t).drop 6144 = p.drop 6144 ++ t := by
          rw [hsplit, List.drop_left' hlen6144]
        have hdrop2 : decrypt_stream bfDec (p.drop 6144 ++ t) blowfish_key =
            decrypt_stream bfDec (p.drop 6144) blowfish_key ++ t := by
          apply ih
          · rw [List.length_drop]; omega
          · rcases hdvd with ⟨c, hc⟩
            rw [List.length_drop, hc]
            rcases Nat.eq_zero_or_pos c with h0 | h0
            · omega
            · exact ⟨c - 1, by omega⟩
          · exact ht
        rw [htake1, hdrop1, hdrop2, List.append_assoc]
  exact fun p t => haux p.length p t le_rfl

theorem c3_short_passthrough_witness :
    decrypt_stream (fun _ b => b) [5, 6] (List.replicate 16 0) = [5, 6] ∧
    decrypt_stream (fun _ b => b) ([] ++ [9]) (List.replicate 16 0) =
      decrypt_stream (fun _ b => b) [] (List.replicate 16 0) ++ [9] :=
  ⟨(c3_short_passthrough (fun _ b => b) (List.replicate 16 0)).1 [5, 6]
      (by norm_num),
   (c3_short_passthrough (fun _ b => b) (List.replicate 16 0)).2 [] [9]
      (by simp) (by norm_num)⟩

/-- Claim C6 counterexample: on a 12-byte chunk (decrypt-eligible region
not a multiple of the 8-byte block size) `decrypt_chunk` raises no error:
it returns normally, decrypting the one full block and silently copying
the trailing 4-byte partial block through unprocessed (shown here with the
identity block function and the all-zero 16-byte key). -/
theorem c6_counterexample :
    decrypt_chunk (fun _ b => b) [0, 1, 2, 3, 4, 5, 6, 7, 8, 9, 10, 11]
        (List.replicate 16 0) =
      [0, 0, 0, 0, 0, 0, 0, 0, 8, 9, 10, 11] ∧
    (decrypt_chunk (fun _ b => b) [0, 1, 2, 3, 4, 5, 6, 7, 8, 9, 10, 11]
        (List.replicate 16 0)).drop 8 =
      [0, 1, 2, 3, 4, 5, 6, 7, 8, 9, 10, 11].drop 8 := by
  constructor <;> decide

/-- Claim C6 (amended): when the decrypt-eligible region is not a multiple
of the 8-byte block size, `decrypt_chunk` does not fail: it decrypts only
the `len / 8` leading full blocks and copies the trailing `len mod 8`
bytes through unchanged, the output keeping the input's length. (Inside
`decrypt_stream` the eligible region is always exactly 2048 bytes, so the
case never arises there.) -/
theorem c6_partial_block_passthrough (bfDec : List Nat → Block8 → Block8)
    (chunk blowfish_key : List Nat) :
    (decrypt_chunk bfDec chunk blowfish_key).length = chunk.length ∧
    (decrypt_chunk bfDec chunk blowfish_key).drop (8 * (chunk.length / 8)) =
      chunk.drop (8 * (chunk.length / 8)) :=
  ⟨decrypt_chunk_length bfDec chunk blowfish_key,
   cbcDecrypt_drop_tail (bfDec blowfish_key) bfIV chunk⟩

theorem hexBytes_length (l : List Nat) : (hexBytes l).length = 2 * l.length := by
  induction l with
  | nil => rfl
  | cons a t ih =>
    simp only [hexBytes, List.map_cons, List.flatten_cons, List.length_append,
      List.length_cons, List.length_nil] at ih ⊢
    omega

theorem md5Bytes_length (m : List Nat) : (md5Bytes m).length = 16 := by
  rw [md5Bytes]
  simp [le4]

theorem md5_hex_length (data : List Nat) : (md5_hex data).length = 32 := by
  rw [md5_hex, hexBytes_length, md5Bytes_length]

/-- Claim C4: key derivation returns exactly 16 bytes, with byte `i` equal
to `h[i] XOR h[i + 16] XOR SECRET[i]` where `h` is the 32 ASCII bytes of
the lowercase hex MD5 digest of the identifier; the function is total and
deterministic (it is a pure function of the identifier bytes). -/
theorem c4_generate_blowfish_key (track_id : List Nat) :
    (generate_blowfish_key track_id).length = 16 ∧
    (md5_hex track_id).length = 32 ∧
    ∀ i, i < 16 →
      (generate_blowfish_key track_id).getD i 0 =
        ((md5_hex track_id).getD i 0) ^^^
          ((md5_hex track_id).getD (i + 16) 0) ^^^ (SECRET.getD i 0) := by
  refine ⟨by simp [generate_blowfish_key], md5_hex_length track_id, ?_⟩
  intro i hi
  simp only [generate_blowfish_key]
  rw [List.getD_eq_getElem _ _ (by simpa using hi), List.getElem_map,
    List.getElem_range]

theorem c4_generate_blowfish_key_witness :
    (generate_blowfish_key [51, 49, 51, 53, 53, 53, 54]).getD 0 0 =
      ((md5_hex [51, 49, 51, 53, 53, 53, 54]).getD 0 0) ^^^
        ((md5_hex [51, 49, 51, 53, 53, 53, 54]).getD (0 + 16) 0) ^^^
        (SECRET.getD 0 0) :=
  (c4_generate_blowfish_key [51, 49, 51, 53, 53, 53, 54]).2.2 0 (by norm_num)

/-- The audio format model from `src/models.rs`. -/
inductive TrackFormat
  | Flac
  | Mp3_320
  | Mp3_128
deriving DecidableEq

/-- Numeric service format code (`TrackFormat::code`). -/
def TrackFormat.code : TrackFormat → Nat
  | .Flac => 9
  | .Mp3_320 => 3
  | .Mp3_128 => 1

/-- Access-token-API name bytes (`TrackFormat::api_name`): `"FLAC"`,
`"MP3_320"`, `"MP3_128"`. -/
def TrackFormat.api_name : TrackFormat → List Nat
  | .Flac => [70, 76, 65, 67]
  | .Mp3_320 => [77, 80, 51, 95, 51, 50, 48]
  | .Mp3_128 => [77, 80, 51, 95, 49, 50, 56]

/-- File extension bytes (`TrackFormat::extension`): `".flac"` for Flac,
`".mp3"` for both MP3 formats. -/
def TrackFormat.extension : TrackFormat → List Nat
  | .Flac => [46, 102, 108, 97, 99]
  | .Mp3_320 | .Mp3_128 => [46, 109, 112, 51]

/-- Fallback pointer (`TrackFormat::fallback`). -/
def TrackFormat.fallback : TrackFormat → Option TrackFormat
  | .Flac => some .Mp3_320
  | .Mp3_320 => some .Mp3_128
  | .Mp3_128 => none

/-- The chain obtained by repeatedly following `fallback` with `fuel`
steps available, collecting every format visited. -/
def fallbackChainAux : Nat → Option TrackFormat → List TrackFormat
  | 0, _ => []
  | _ + 1, none => []
  | n + 1, some f => f :: fallbackChainAux n f.fallback

/-- Claim C9: the format model assigns codes 9, 3, 1 and extensions
`.flac`, `.mp3`, `.mp3` to Flac, Mp3_320, Mp3_128, and repeatedly
following `fallback` from Flac yields exactly
`[Flac, Mp3_320, Mp3_128]` and then stops, however much fuel is
available: no cycle, no fourth element. -/
theorem c9_track_format_model :
    (TrackFormat.Flac.code = 9 ∧ TrackFormat.Mp3_320.code = 3 ∧
      TrackFormat.Mp3_128.code = 1) ∧
    (TrackFormat.Flac.extension = [46, 102, 108, 97, 99] ∧
      TrackFormat.Mp3_320.extension = [46, 109, 112, 51] ∧
      TrackFormat.Mp3_128.extension = [46, 109, 112, 51]) ∧
    (TrackFormat.Flac.fallback = some TrackFormat.Mp3_320 ∧
      TrackFormat.Mp3_320.fallback = some TrackFormat.Mp3_128 ∧
      TrackFormat.Mp3_128.fallback = none) ∧
    ∀ n, 3 ≤ n → fallbackChainAux n (some TrackFormat.Flac) =
      [TrackFormat.Flac, TrackFormat.Mp3_320, TrackFormat.Mp3_128] := by
  refine ⟨⟨rfl, rfl, rfl⟩, ⟨rfl, rfl, rfl⟩, ⟨rfl, rfl, rfl⟩, ?_⟩
  intro n hn
  obtain ⟨m, rfl⟩ : ∃ m, n = m + 3 := ⟨n - 3, by omega⟩
  have hnone : fallbackChainAux m none = [] := by cases m <;> rfl
  calc fallbackChainAux (m + 3) (some TrackFormat.Flac)
      = TrackFormat.Flac :: TrackFormat.Mp3_320 :: TrackFormat.Mp3_128 ::
          fallbackChainAux m none := rfl
    _ = [TrackFormat.Flac, TrackFormat.Mp3_320, TrackFormat.Mp3_128] := by
        rw [hnone]

theorem c9_track_format_model_witness :
    fallbackChainAux 5 (some TrackFormat.Flac) =
      [TrackFormat.Flac, TrackFormat.Mp3_320, TrackFormat.Mp3_128] :=
  c9_track_format_model.2.2.2 5 (by norm_num)

/-- The UTF-8 bytes of the single separator character U+00A4. -/
def sep : List Nat := [194, 164]

/-- The fixed AES key bytes `"jo6aey6haid2Teih"`. -/
def aesKey : List Nat :=
  [106, 111, 54, 97, 101, 121, 54, 104, 97, 105, 100, 50, 84, 101, 105, 104]

/-- ASCII decimal digits of a number, as `format!` renders a `u32`. -/
def decimalBytes (n : Nat) : List Nat :=
  (Nat.toDigits 10 n).map Char.toNat

/-- Embedding of `aes_ecb_encrypt` from `src/crypto.rs`: encrypt per 16-byte block with
the AES-128 primitive abstracted as `aesBlock`, hex-encoding the
concatenated cipher blocks. (The source panics when the data length is not
a multiple of 16 — `clone_from_slice` — and its only caller pads first.) -/
def aes_ecb_encrypt (aesBlock : List Nat → List Nat → List Nat)
    (key data : List Nat) : List Nat :=
  hexBytes (((chunks16 data).map (aesBlock key)).flatten)

/-- Embedding of `generate_stream_path` from `src/crypto.rs`: build the raw
`md5 SEP format SEP sng_id SEP media_version` string, prefix its MD5 hex
digest and a trailing separator, pad with `'.'` (byte 46) when
`pad_len = 16 - len % 16` is below 16, and ECB-encrypt under the fixed
key. -/
def generate_stream_path (aesBlock : List Nat → List Nat → List Nat)
    (sng_id md5v media_version : List Nat) (format : Nat) : List Nat :=
  let url_part_raw := md5v ++ sep ++ decimalBytes format ++ sep ++ sng_id ++
    sep ++ media_version
  let md5val := md5_hex url_part_raw
  let step2 := md5val ++ sep ++ url_part_raw ++ sep
  let pad_len := 16 - step2.length % 16
  let step2p := if pad_len < 16 then step2 ++ List.replicate pad_len 46
    else step2
  aes_ecb_encrypt aesBlock aesKey step2p

/-- Modelled from the spec: the legacy stream path as claim C5 words it —
the same raw concatenation and digest prefix, right-padded with dots only
when the byte length is not a multiple of 16, then encrypted per 16-byte
block under the fixed key and hex-encoded. -/
def spec_stream_path (aesBlock : List Nat → List Nat → List Nat)
    (sng_id md5v media_version : List Nat) (format : Nat) : List Nat :=
  let raw := md5v ++ sep ++ decimalBytes format ++ sep ++ sng_id ++ sep ++
    media_version
  let step2 := md5_hex raw ++ sep ++ raw ++ sep
  let padded := if step2.length % 16 ≠ 0 then
      step2 ++ List.replicate (16 - step2.length % 16) 46
    else step2
  hexBytes (((chunks16 padded).map (aesBlock aesKey)).flatten)

theorem pad_if_eq (s : List Nat) :
    (if 16 - s.length % 16 < 16 then
        s ++ List.replicate (16 - s.length % 16) 46
      else s) =
    (if s.length % 16 ≠ 0 then
        s ++ List.replicate (16 - s.length % 16) 46
      else s) := by
  by_cases h : s.length % 16 = 0
  · rw [if_neg (by omega), if_neg (not_not_intro h)]
  · rw [if_pos (by omega), if_pos h]

/-- Claim C5: the legacy stream path is built exactly as the spec
describes — `raw = checksum SEP format SEP id SEP version` with the
U+00A4 separator, `step2 = md5_hex(raw) SEP raw SEP`, dot-padding applied
precisely when `step2`'s byte length is not a multiple of 16 (with
`16 - len % 16` dots, nothing when aligned), then per-16-byte-block ECB
encryption under `"jo6aey6haid2Teih"` and hex encoding. -/
theorem c5_stream_path_construction
    (aesBlock : List Nat → List Nat → List Nat)
    (sng_id md5v media_version : List Nat) (format : Nat) :
    generate_stream_path aesBlock sng_id md5v media_version format =
      spec_stream_path aesBlock sng_id md5v media_version format := by
  simp only [generate_stream_path, spec_stream_path, aes_ecb_encrypt]
  exact congrArg
    (fun x => hexBytes (((chunks16 x).map (aesBlock aesKey)).flatten))
    (pad_if_eq _)

/-- Bytes of `"https://e-cdns-proxy-"`. -/
def urlHead : List Nat :=
  [104, 116, 116, 112, 115, 58, 47, 47, 101, 45, 99, 100, 110, 115, 45,
   112, 114, 111, 120, 121, 45]

/-- Bytes of `".dzcdn.net/mobile/1/"`. -/
def urlTail : List Nat :=
  [46, 100, 122, 99, 100, 110, 46, 110, 101, 116, 47, 109, 111, 98, 105,
   108, 101, 47, 49, 47]

/-- Embedding of `generate_crypted_stream_url` from `src/crypto.rs`: the shard letter
is the checksum's first byte (`'0'`, byte 48, when empty — the checksum is
ASCII hex, so its first byte is its first character). -/
def generate_crypted_stream_url (aesBlock : List Nat → List Nat → List Nat)
    (sng_id md5v media_version : List Nat) (format : Nat) : List Nat :=
  let url_part := generate_stream_path aesBlock sng_id md5v media_version
    format
  let first_char := md5v.headD 48
  urlHead ++ [first_char] ++ urlTail ++ url_part

/-- Preference rank of a format; it strictly decreases along `fallback`. -/
def TrackFormat.rank : TrackFormat → Nat
  | .Flac => 2
  | .Mp3_320 => 1
  | .Mp3_128 => 0

/-- The while-loop of `get_download_url`'s legacy branch in
`src/download.rs`: walk the fallback chain from the preferred format until
one has a positive recorded file size. -/
def find_fmt (filesizes : TrackFormat → Nat) (f : TrackFormat) :
    Option TrackFormat :=
  if 0 < filesizes f then some f
  else
    match h : f.fallback with
    | some g => find_fmt filesizes g
    | none => none
termination_by f.rank
decreasing_by
  cases f <;> simp_all [TrackFormat.fallback] <;> subst h <;> decide

/-- Bytes of `"Track has no MD5, cannot generate download URL"`. -/
def noMd5Msg : List Nat :=
  [84, 114, 97, 99, 107, 32, 104, 97, 115, 32, 110, 111, 32, 77, 68, 53,
   44, 32, 99, 97, 110, 110, 111, 116, 32, 103, 101, 110, 101, 114, 97,
   116, 101, 32, 100, 111, 119, 110, 108, 111, 97, 100, 32, 85, 82, 76]

/-- The legacy branch of `get_download_url` in `src/download.rs` (reached
when the token path is unavailable): fail when the track's MD5 origin
checksum is empty, otherwise pick the first format along the fallback
chain with a positive file size (falling back to the preferred format as
a last resort) and synthesize the crypted stream URL for it. -/
def get_download_url_legacy (aesBlock : List Nat → List Nat → List Nat)
    (sng_id md5v media_version : List Nat) (filesizes : TrackFormat → Nat)
    (format : TrackFormat) :
    Except (List Nat) (List Nat × TrackFormat × Bool) :=
  if md5v = [] then Except.error noMd5Msg
  else
    match find_fmt filesizes format with
    | some fmt => Except.ok
        (generate_crypted_stream_url aesBlock sng_id md5v media_version
          fmt.code, fmt, true)
    | none => Except.ok
        (generate_crypted_stream_url aesBlock sng_id md5v media_version
          format.code, format, true)

/-- Claim C7: legacy URL synthesis requires a non-empty origin checksum —
with an empty checksum the legacy branch fails with the fatal
`"Track has no MD5"` error and no URL is synthesized; with a non-empty
checksum it returns a URL whose proxy shard is selected by the checksum's
first character:
`https://e-cdns-proxy-{first}.dzcdn.net/mobile/1/{obfuscated}`. -/
theorem c7_legacy_url_precondition
    (aesBlock : List Nat → List Nat → List Nat)
    (sng_id md5v media_version : List Nat) (filesizes : TrackFormat → Nat)
    (format : TrackFormat) :
    (md5v = [] →
      get_download_url_legacy aesBlock sng_id md5v media_version filesizes
        format = Except.error noMd5Msg) ∧
    (md5v ≠ [] → ∃ f : TrackFormat,
      get_download_url_legacy aesBlock sng_id md5v media_version filesizes
        format = Except.ok
          (urlHead ++ [md5v.headD 48] ++ urlTail ++
            generate_stream_path aesBlock sng_id md5v media_version f.code,
           f, true)) := by
  constructor
  · intro h
    rw [get_download_url_legacy, if_pos h]
  · intro h
    rw [get_download_url_legacy, if_neg h]
    cases hf : find_fmt filesizes format with
    | some fmt => exact ⟨fmt, rfl⟩
    | none => exact ⟨format, rfl⟩

theorem c7_legacy_url_precondition_witness :
    get_download_url_legacy (fun _ b => b) [] [] [] (fun _ => 0)
      TrackFormat.Flac = Except.error noMd5Msg ∧
    ∃ f : TrackFormat,
      get_download_url_legacy (fun _ b => b) [49] [97] [49] (fun _ => 0)
        TrackFormat.Flac = Except.ok
          (urlHead ++ [List.headD [97] 48] ++ urlTail ++
            generate_stream_path (fun _ b => b) [49] [97] [49] f.code,
           f, true) :=
  ⟨(c7_legacy_url_precondition (fun _ b => b) [] [] [] (fun _ => 0)
      TrackFormat.Flac).1 rfl,
   (c7_legacy_url_precondition (fun _ b => b) [49] [97] [49] (fun _ => 0)
      TrackFormat.Flac).2 (by decide)⟩

/-- The MP4-family signature bytes `"ftyp"`. -/
def ftypBytes : List Nat := [102, 116, 121, 112]

/-- Position of the first nonzero byte, mirroring
`iter().position(|&b| b != 0)` in `download_track`. -/
def firstNonzeroIdx : List Nat → Option Nat
  | [] => none
  | b :: t => if b ≠ 0 then some 0 else (firstNonzeroIdx t).map (· + 1)

/-- The leading-zero depadding step of `download_track` in
`src/download.rs` (lines 169-179): a buffer whose first byte is zero has
its leading run of zeros stripped — with fallback position 0 when every
byte is zero — unless it is longer than 8 bytes and carries the `ftyp`
signature at bytes 4 to 7, in which case it is left untouched. -/
def depad (final_data : List Nat) : List Nat :=
  if final_data ≠ [] ∧ final_data.headD 0 = 0 then
    if 8 < final_data.length ∧ (final_data.drop 4).take 4 = ftypBytes then
      final_data
    else
      final_data.drop ((firstNonzeroIdx final_data).getD 0)
  else final_data

theorem firstNonzeroIdx_eq_none (l : List Nat) (h : ∀ b ∈ l, b = 0) :
    firstNonzeroIdx l = none := by
  induction l with
  | nil => rfl
  | cons a t ih =>
    have ha : a = 0 := h a (by simp)
    rw [firstNonzeroIdx, if_neg (by simp [ha]),
      ih (fun b hb => h b (by simp [hb]))]
    rfl

theorem firstNonzeroIdx_isSome (l : List Nat) (h : ∃ b ∈ l, b ≠ 0) :
    ∃ k, firstNonzeroIdx l = some k := by
  induction l with
  | nil => simp at h
  | cons a t ih =>
    by_cases ha : a = 0
    · have ht : ∃ b ∈ t, b ≠ 0 := by
        rcases h with ⟨b, hb, hbne⟩
        rcases List.mem_cons.mp hb with h0 | h0
        · exact absurd (h0.trans ha) hbne
        · exact ⟨b, h0, hbne⟩
      obtain ⟨k, hk⟩ := ih ht
      refine ⟨k + 1, ?_⟩
      rw [firstNonzeroIdx, if_neg (by simp [ha]), hk]
      rfl
    · exact ⟨0, by rw [firstNonzeroIdx, if_pos ha]⟩

/-- When some byte is nonzero, dropping up to the first nonzero position
strips exactly the leading run of zeros. -/
theorem drop_firstNonzeroIdx (l : List Nat) (h : ∃ b ∈ l, b ≠ 0) :
    l.drop ((firstNonzeroIdx l).getD 0) =
      l.dropWhile (fun b => b == 0) := by
  induction l with
  | nil => simp at h
  | cons a t ih =>
    by_cases ha : a = 0
    · subst ha
      have ht : ∃ b ∈ t, b ≠ 0 := by
        rcases h with ⟨b, hb, hbne⟩
        rcases List.mem_cons.mp hb with h0 | h0
        · exact absurd h0 hbne
        · exact ⟨b, h0, hbne⟩
      obtain ⟨k, hk⟩ := firstNonzeroIdx_isSome t ht
      have hd : firstNonzeroIdx (0 :: t) = some (k + 1) := by
        rw [firstNonzeroIdx, if_neg (by simp), hk]
        rfl
      rw [hd]
      show t.drop ((some k).getD 0) = List.dropWhile (fun b => b == 0) (0 :: t)
      rw [List.dropWhile_cons]
      simp only [beq_self_eq_true, if_pos]
      rw [← hk]
      exact ih ht
    · rw [firstNonzeroIdx, if_pos ha]
      show a :: t = List.dropWhile (fun b => b == 0) (a :: t)
      rw [List.dropWhile_cons, if_neg (by simpa using ha)]

/-- Claim C8 counterexample: the exactly-8-byte buffer
`[0,0,0,0,102,116,121,112]` has bytes 4-7 equal to `"ftyp"`, yet the code
strips its leading zeros (the guard requires strictly more than 8 bytes),
so it is not left untouched as the claim states. -/
theorem c8_counterexample :
    (List.take 4 (List.drop 4 [0, 0, 0, 0, 102, 116, 121, 112]) =
      ftypBytes) ∧
    depad [0, 0, 0, 0, 102, 116, 121, 112] = [102, 116, 121, 112] ∧
    depad [0, 0, 0, 0, 102, 116, 121, 112] ≠
      [0, 0, 0, 0, 102, 116, 121, 112] := by
  refine ⟨by decide, by decide, by decide⟩

/-- Claim C8 (amended): a decrypted buffer whose first byte is zero has
its leading run of zero bytes stripped before the file is written, unless
the buffer is longer than 8 bytes and bytes 4-7 equal `"ftyp"`, in which
case it is left untouched; in particular the 9-byte buffer
`[0,0,0,0,102,116,121,112,0]` is unchanged and `[0,0,1,2,3]` becomes
`[1,2,3]`. -/
theorem c8_leading_zero_strip (l : List Nat) :
    (8 < l.length → (l.drop 4).take 4 = ftypBytes → depad l = l) ∧
    (l.headD 0 = 0 → ¬(8 < l.length ∧ (l.drop 4).take 4 = ftypBytes) →
      (∃ b ∈ l, b ≠ 0) → depad l = l.dropWhile (fun b => b == 0)) ∧
    depad [0, 0, 0, 0, 102, 116, 121, 112, 0] =
      [0, 0, 0, 0, 102, 116, 121, 112, 0] ∧
    depad [0, 0, 1, 2, 3] = [1, 2, 3] := by
  refine ⟨?_, ?_, by decide, by decide⟩
  · intro hlen hsig
    rw [depad]
    by_cases hz : l ≠ [] ∧ l.headD 0 = 0
    · rw [if_pos hz, if_pos ⟨hlen, hsig⟩]
    · rw [if_neg hz]
  · intro hhead hnsig hnz
    have hne : l ≠ [] := by
      rintro rfl
      simp at hnz
    rw [depad, if_pos ⟨hne, hhead⟩, if_neg hnsig,
      drop_firstNonzeroIdx l hnz]

theorem c8_leading_zero_strip_witness :
    depad [0, 0, 0, 0, 102, 116, 121, 112, 0, 1] =
      [0, 0, 0, 0, 102, 116, 121, 112, 0, 1] ∧
    depad [0, 0, 1, 2, 3] =
      List.dropWhile (fun b => b == 0) [0, 0, 1, 2, 3] :=
  ⟨(c8_leading_zero_strip [0, 0, 0, 0, 102, 116, 121, 112, 0, 1]).1
      (by norm_num) (by decide),
   (c8_leading_zero_strip [0, 0, 1, 2, 3]).2.1 (by decide) (by decide)
      (by decide)⟩

/-- Claim C10: a non-empty buffer consisting entirely of zero bytes is
returned unchanged by the depadding step — the search for the first
nonzero byte falls back to position 0, so stripping never turns a
non-empty buffer into an empty one. -/
theorem c10_all_zero_unchanged (l : List Nat) (hne : l ≠ [])
    (hz : ∀ b ∈ l, b = 0) : depad l = l := by
  have hhead : l.headD 0 = 0 := by
    cases l with
    | nil => rfl
    | cons a t => exact hz a (by simp)
  rw [depad, if_pos ⟨hne, hhead⟩]
  by_cases hsig : 8 < l.length ∧ (l.drop 4).take 4 = ftypBytes
  · rw [if_pos hsig]
  · rw [if_neg hsig, firstNonzeroIdx_eq_none l hz]
    rfl

theorem c10_all_zero_unchanged_witness :
    depad [0, 0, 0] = [0, 0, 0] :=
  c10_all_zero_unchanged [0, 0, 0] (by decide) (by decide)
